import Mathlib

/-!
Verification of the rendezvous negotiation subsystem of a composable
networking-stack library (`bertha/src/negotiate/rendezvous.rs`).

The rendezvous module (`rendezvous.rs`) is embedded directly from the source.
The core stack-algebra types it imports (`Offer`, `StackNonce`, `Select`,
`monomorphize`, `stack_pair_valid`, `have_all`) live in source files that are
not part of this tree; those are modelled from the specification, and each such
definition is marked `Modelled from the spec:` in its doc comment.

Machine integers (`u64`, `usize`, `u32`) are modelled as `Nat`: all of them are
identifiers or counters on which the code performs no overflowing arithmetic.
`HashMap<u64, Offer>` (a `StackNonce`) is modelled as an association list.
-/

/-- Decidable equality of `Except` results, used to evaluate the embedded
operations at concrete inputs. -/
instance instDecEqExcept {ε α : Type} [DecidableEq ε] [DecidableEq α] :
    DecidableEq (Except ε α) := fun
  | .ok a, .ok b =>
    match decEq a b with
    | isTrue h => isTrue (by rw [h])
    | isFalse h => isFalse (by intro hh; cases hh; exact h rfl)
  | .ok _, .error _ => isFalse (by intro h; cases h)
  | .error _, .ok _ => isFalse (by intro h; cases h)
  | .error a, .error b =>
    match decEq a b with
    | isTrue h => isTrue (by rw [h])
    | isFalse h => isFalse (by intro hh; cases hh; exact h rfl)

namespace Tbm

/-- Modelled from the spec: an `Offer` for one capability within one concrete
stack: `{ capability_guid, implementation_guid, available: set<variant_id>,
sidedness }` (the capability guid is the key it is stored under).  Matching the
`Offer` usage in `rendezvous.rs`, `sidedness` is `Option<universe>`: `none`
means the capability is both-sided, `some univ` means it is one-sided with the
closed universe `univ`. -/
structure Offer where
  impl_guid : Nat
  available : List Nat
  sidedness : Option (List Nat)
deriving DecidableEq, Repr

/-- Modelled from the spec: a `StackNonce` is a mapping
`capability_guid -> Offer`, here an association list. -/
abbrev Nonce := List (Nat × Offer)

/-- Lookup in the association-list representation of a `StackNonce`
(`HashMap::get`). -/
def lookup (n : Nonce) (g : Nat) : Option Offer :=
  (n.find? (fun e => e.1 == g)).map (fun e => e.2)

/-- Modelled from the spec: `have_all(univ, joint)` (in the missing
`negotiate` module root) checks that every element of `univ` appears in
`joint`, i.e. that the universe is fully covered. -/
def have_all (univ joint : List Nat) : Bool :=
  univ.all (fun x => joint.contains x)

/-- `RendezvousEntry` from `rendezvous.rs`: the nonce stored for an address. -/
structure RendezvousEntry where
  nonce : Nonce
deriving DecidableEq, Repr

/-- `NegotiateRendezvousResult` from `rendezvous.rs`. -/
inductive NegotiateRendezvousResult where
  | Matched (num_participants : Nat) (round_number : Nat)
  | NoMatch (entry : RendezvousEntry) (num_participants : Nat) (round_number : Nat)
deriving DecidableEq, Repr

/-- `ConnState` from the `MockRendezvous` backend in `rendezvous.rs`. -/
structure ConnState where
  num_participants : Nat
  round_number : Nat
  curr_semantics : RendezvousEntry
  staged : Option RendezvousEntry
  commit_count : Nat
deriving DecidableEq, Repr

/-- `MockRendezvous::try_init`: the per-address state is `or_insert`ed with
`num_participants = 0`, `round_number = 0`, `curr_semantics = offer`; then
`num_participants += 1`, and the result is `Matched` when the stored current
semantics equal the offer and `NoMatch` (carrying the stored entry) otherwise.
The store argument is the map entry for the address (`None` when the address
is unset). -/
def try_init (store : Option ConnState) (offer : RendezvousEntry) :
    ConnState × NegotiateRendezvousResult :=
  let st0 := store.getD ⟨0, 0, offer, none, 0⟩
  let st := { st0 with num_participants := st0.num_participants + 1 }
  if st.curr_semantics = offer then
    (st, .Matched st.num_participants st.round_number)
  else
    (st, .NoMatch st.curr_semantics st.num_participants st.round_number)

/-- The loop body of `stack_pair_partial_valid` from `rendezvous.rs`, with the
`at_least_one_found` accumulator made explicit.  For each client entry:
one-sided offers (`sidedness = some univ`) extend `joint` with the server's
available set when the guid is present on the server and require
`have_all(univ, joint)`; both-sided offers present on both sides require equal
`impl_guid` and mutual `have_all` of the available sets; a failed check
returns `false` immediately, and the accumulated flag is returned at the
end. -/
def stack_pair_partial_valid_go (server : Nonce) :
    List (Nat × Offer) → Bool → Bool
  | [], found => found
  | (guid, offer) :: rest, found =>
    match offer.sidedness with
    | some univ =>
      let srv := lookup server guid
      let joint := offer.available ++ ((srv.map (fun o => o.available)).getD [])
      if have_all univ joint then
        stack_pair_partial_valid_go server rest (found || srv.isSome)
      else false
    | none =>
      match lookup server guid with
      | some srv_offer =>
        if offer.impl_guid == srv_offer.impl_guid
            && have_all offer.available srv_offer.available
            && have_all srv_offer.available offer.available
        then stack_pair_partial_valid_go server rest true
        else false
      | none => stack_pair_partial_valid_go server rest found

/-- `stack_pair_partial_valid(client, server)` from `rendezvous.rs`. -/
def stack_pair_partial_valid (client server : Nonce) : Bool :=
  stack_pair_partial_valid_go server client false

/-- The per-capability compatibility rule as claim C7 states it, for one
examined client entry: a one-sided capability with closed universe requires
the joint available sets (client plus server, where the server has the guid)
to cover the universe; a both-sided capability present on both sides requires
equal `impl_guid` and equal available sets. -/
def offerRuleOk (server : Nonce) (e : Nat × Offer) : Bool :=
  match e.2.sidedness, lookup server e.1 with
  | some univ, some so => have_all univ (e.2.available ++ so.available)
  | some univ, none => have_all univ e.2.available
  | none, some so =>
      e.2.impl_guid == so.impl_guid
        && have_all e.2.available so.available
        && have_all so.available e.2.available
  | none, none => true

/-- Whether at least one capability guid of `client` is also present in
`server` (non-empty intersection of the two nonces' guid sets). -/
def sharesGuid (client server : Nonce) : Bool :=
  client.any (fun e => (lookup server e.1).isSome)

/-- Phase 1 of `MockRendezvous::transition`: under the lock, set
`staged = Some(new_entry)`, increment `round_number`, set `commit_count = 1`,
and remember the resulting round number (`round_num` in the source). -/
def transition_phase1 (s : ConnState) (new_entry : RendezvousEntry) : ConnState × Nat :=
  let s1 := { s with staged := some new_entry,
                     round_number := s.round_number + 1,
                     commit_count := 1 }
  (s1, s1.round_number)

/-- Outcome of one iteration of the phase-2 polling loop of
`MockRendezvous::transition`. -/
inductive Phase2Poll where
  | committed (s : ConnState) (ret : Nat)
  | failed (s : ConnState)
  | waiting (s : ConnState)
  | panicked
deriving DecidableEq, Repr

/-- One iteration of phase 2 of `MockRendezvous::transition`: if
`commit_count == num_participants`, increment `round_number`, reset
`commit_count` to 0, move `staged` into `curr_semantics` (`staged.take()`,
whose `.unwrap()` panics if nothing is staged) and return the new round;
otherwise, if `round_number` has moved past the phase-1 round the commit
failed; otherwise keep waiting. -/
def transition_phase2_poll (s : ConnState) (round_num : Nat) : Phase2Poll :=
  if s.commit_count = s.num_participants then
    match s.staged with
    | some e =>
      .committed { s with round_number := s.round_number + 1,
                          commit_count := 0,
                          staged := none,
                          curr_semantics := e } (s.round_number + 1)
    | none => .panicked
  else if round_num < s.round_number then .failed s
  else .waiting s

/-- The registration step of `MockRendezvous::staged_update`: under the lock,
panic (`none`) unless the stored round equals `round_ctr` and something is
staged; otherwise increment `commit_count`. -/
def staged_update_register (s : ConnState) (round_ctr : Nat) : Option ConnState :=
  if s.round_number = round_ctr then
    if s.staged.isSome then some { s with commit_count := s.commit_count + 1 }
    else none
  else none

/-- `k` participants performing the `staged_update` registration step in
sequence at round `round_ctr`. -/
def staged_update_iter (s : ConnState) (round_ctr : Nat) : Nat → Option ConnState
  | 0 => some s
  | k + 1 =>
    (staged_update_iter s round_ctr k).bind fun s2 => staged_update_register s2 round_ctr

/-- One response of `poll_entry` as observed by the default
`RendezvousBackend::notify` implementation: an `Ok` result or a backend
error. -/
inductive PollOutcome where
  | Ok (r : NegotiateRendezvousResult)
  | Err
deriving DecidableEq, Repr

/-- What a call to the default `notify` does once it finishes. -/
inductive NotifyReturn where
  | returns (r : NegotiateRendezvousResult)
  | errors
  | panics
deriving DecidableEq, Repr

/-- The polling loop of the default `RendezvousBackend::notify`, applied to
the stream of `poll_entry` responses: a `Matched` response whose participant
count equals the count captured by the first poll (`conn_ctr`) is no change
and the loop continues; anything else (a `Matched` with a different count, a
`NoMatch`, or an error) is returned.  `none` means the stream ran out while
nothing had changed, i.e. the call is still polling. -/
def notify_loop (conn_ctr : Nat) : List PollOutcome → Option NotifyReturn
  | [] => none
  | .Ok (.Matched n r) :: rest =>
    if n = conn_ctr then notify_loop conn_ctr rest
    else some (.returns (.Matched n r))
  | .Ok (.NoMatch e n r) :: _ => some (.returns (.NoMatch e n r))
  | .Err :: _ => some .errors

/-- The default `RendezvousBackend::notify` over the stream of `poll_entry`
responses: the first poll returns `NoMatch` immediately and propagates
errors; a first `Matched` must carry the caller's round (`assert_eq!`
panics otherwise) and fixes `conn_ctr` for the polling loop. -/
def notify (curr_round : Nat) : List PollOutcome → Option NotifyReturn
  | [] => none
  | .Ok (.Matched n r) :: rest =>
    if r = curr_round then notify_loop n rest else some .panics
  | .Ok (.NoMatch e n r) :: _ => some (.returns (.NoMatch e n r))
  | .Err :: _ => some .errors

/-- Preference flag carried by a `Select` node. -/
inductive Pref where
  | left
  | right
  | unspec
deriving DecidableEq, Repr

/-- Data of one leaf layer: the capability guid it negotiates, the `Offer` it
makes for it, and the `implementation_priority` the leaf declares. -/
structure LeafInfo where
  guid : Nat
  offer : Offer
  prio : Nat
deriving DecidableEq, Repr

/-- Modelled from the spec: a stack value is a tree whose leaves are concrete
layers and whose internal nodes are `Sequence` or `Select(left, right,
preference)` (the generic `CxList`/`Select` types of the missing `negotiate`
module, represented as a recursive tagged variant as §9 of the spec
suggests). -/
inductive Stack where
  | leaf (i : LeafInfo)
  | seq (a b : Stack)
  | sel (l r : Stack) (p : Pref)
deriving DecidableEq, Repr

/-- Modelled from the spec: `offers()` enumerates every concrete
specialization.  A leaf yields one nonce with its own offer; `Sequence`
yields the cartesian product merging per-nonce maps; `Select` yields the
union of both sides' enumerations. -/
def offers : Stack → List Nonce
  | .leaf i => [[(i.guid, i.offer)]]
  | .seq a b => (offers a).flatMap fun na => (offers b).map fun nb => na ++ nb
  | .sel l r _ => offers l ++ offers r

/-- The implementation guids mentioned by a nonce. -/
def implSet (n : Nonce) : List Nat := n.map fun e => e.2.impl_guid

/-- Boolean subset test on guid lists. -/
def subsetB (a b : List Nat) : Bool := a.all fun x => b.contains x

/-- Whether the picked nonce `n` contains all implementation guids of some
offer of branch `s` — the test by which `apply` decides that a `Select`
resolves to that branch ("inspects whether `picked` contains the left
branch's `impl_guid` or the right's"). -/
def selMatch (s : Stack) (n : Nonce) : Bool :=
  (offers s).any fun o => subsetB (implSet o) (implSet n)

/-- A fully applied (concrete) stack: what `apply` produces. -/
inductive ConcreteStack where
  | leafc (guid impl : Nat)
  | seqc (a b : ConcreteStack)
  | selc (isLeft : Bool) (sub : ConcreteStack)
deriving DecidableEq, Repr

/-- The negotiation errors claims C1 and C9 are about. -/
inductive NegError where
  | NoCompatibleStack
  | MonomorphizationFailed
deriving DecidableEq, Repr

/-- Modelled from the spec: `apply(picked)` collapses the stack to a concrete
one matching `picked`.  For each `Select` it inspects whether `picked`
contains the left branch's implementation guids or the right's; panics are
forbidden — an unresolvable `apply` returns `MonomorphizationFailed`. -/
def applyStack : Stack → Nonce → Except NegError ConcreteStack
  | .leaf i, _ => .ok (.leafc i.guid i.offer.impl_guid)
  | .seq a b, n => do
    let ca ← applyStack a n
    let cb ← applyStack b n
    return .seqc ca cb
  | .sel l r _, n =>
    if selMatch l n then (applyStack l n).map (.selc true)
    else if selMatch r n then (applyStack r n).map (.selc false)
    else .error .MonomorphizationFailed

/-- Modelled from the spec: the per-guid case analysis of
`stack_pair_valid(a, b)` in the missing `negotiate::server` module.  If one
side lacks the guid, the present side must be one-sided with its universe
covered by its own available set; if both are present, a both-sided pair
requires equal `impl_guid` and equal available sets, a one-sided pair with a
closed universe requires the union of the available sets to cover it, and
mismatched sidedness metadata is an incompatible build. -/
def offerPairValid (oa ob : Option Offer) : Bool :=
  match oa, ob with
  | none, none => true
  | some o, none =>
    match o.sidedness with
    | some univ => have_all univ o.available
    | none => false
  | none, some o =>
    match o.sidedness with
    | some univ => have_all univ o.available
    | none => false
  | some o1, some o2 =>
    match o1.sidedness, o2.sidedness with
    | some u1, some _ => have_all u1 (o1.available ++ o2.available)
    | none, none =>
      o1.impl_guid == o2.impl_guid
        && have_all o1.available o2.available
        && have_all o2.available o1.available
    | _, _ => false

/-- Modelled from the spec: `stack_pair_valid(a, b)` checks the per-guid rule
for each guid present on either side. -/
def stack_pair_valid (a b : Nonce) : Bool :=
  (a ++ b).all fun e => offerPairValid (lookup a e.1) (lookup b e.1)

/-- Pick tie-break rule 1, modelled from the spec: whether a nonce is fully
one-sided compatible without needing the peer (every capability one-sided
with its universe covered by the nonce's own available set). -/
def selfContained (n : Nonce) : Bool :=
  n.all fun e =>
    match e.2.sidedness with
    | some univ => have_all univ e.2.available
    | none => false

/-- Pick tie-break rule 2, modelled from the spec: how well a candidate nonce
respects the declared `Select` preferences, scored over the stack's `Select`
nodes along the branch the nonce resolves to. -/
def prefScore : Stack → Nonce → Nat
  | .leaf _, _ => 0
  | .seq a b, n => prefScore a n + prefScore b n
  | .sel l r p, n =>
    (match p with
     | .left => if selMatch l n then 1 else 0
     | .right => if selMatch r n then 1 else 0
     | .unspec => 0)
    + (if selMatch l n then prefScore l n else prefScore r n)

/-- Pick tie-break rule 3, modelled from the spec: the total
`implementation_priority` declared by the leaves a candidate nonce
selects. -/
def prioScore : Stack → Nonce → Nat
  | .leaf i, n => if (implSet n).contains i.offer.impl_guid then i.prio else 0
  | .seq a b, n => prioScore a n + prioScore b n
  | .sel l r _, n => if selMatch l n then prioScore l n else prioScore r n

/-- Pick tie-break rule 4, modelled from the spec: the
capability-to-implementation guid pairs of a nonce, compared
lexicographically as the final deterministic tie-break. -/
def keyPairs (n : Nonce) : List (Nat × Nat) := n.map fun e => (e.1, e.2.impl_guid)

/-- The composite pick key: rules 1–4 in order. -/
structure PickKey where
  r1 : Nat
  r2 : Nat
  r3 : Nat
  r4 : List (Nat × Nat)
deriving DecidableEq, Repr

/-- The pick key of candidate `n` for stack `S`. -/
def pickKey (S : Stack) (n : Nonce) : PickKey :=
  ⟨if selfContained n then 1 else 0, prefScore S n, prioScore S n, keyPairs n⟩

/-- Lexicographic strict order on guid-pair lists (shorter lists first). -/
def pairsLtB : List (Nat × Nat) → List (Nat × Nat) → Bool
  | [], [] => false
  | [], _ :: _ => true
  | _ :: _, [] => false
  | a :: as, b :: bs =>
    if a.1 < b.1 then true
    else if b.1 < a.1 then false
    else if a.2 < b.2 then true
    else if b.2 < a.2 then false
    else pairsLtB as bs

/-- Lexicographic strict order on pick keys: rule 1, then rule 2, then
rule 3, then the rule-4 pair list, encoded as one pair-list comparison. -/
def keyLtB (x y : PickKey) : Bool :=
  pairsLtB ((x.r1, x.r2) :: (x.r3, 0) :: x.r4) ((y.r1, y.r2) :: (y.r3, 0) :: y.r4)

/-- The deterministic choice among candidates: the key-maximal element (the
first one, if several compare equal). -/
def chooseBest (k : Nonce → PickKey) : List Nonce → Option Nonce
  | [] => none
  | n :: rest =>
    some (rest.foldl (fun acc m => if keyLtB (k acc) (k m) then m else acc) n)

/-- Modelled from the spec: step 2 of the monomorphizer — the candidate local
offers, each valid against some peer offer (or against itself when the peer
list is empty). -/
def candidates (S : Stack) (P : List Nonce) : List Nonce :=
  if P.isEmpty then (offers S).filter fun l => stack_pair_valid l l
  else (offers S).filter fun l => P.any fun p => stack_pair_valid l p

/-- Modelled from the spec: the monomorphizer — enumerate the local offers,
keep those compatible with the peer's offers, pick deterministically
(tie-break rules 1–4), fail with `NoCompatibleStack` when no candidate
remains, and verify that `apply` succeeds on the picked nonce. -/
def monomorphize (S : Stack) (P : List Nonce) : Except NegError Nonce :=
  match chooseBest (pickKey S) (candidates S P) with
  | none => .error .NoCompatibleStack
  | some m =>
    if (applyStack S m).isOk then .ok m else .error .MonomorphizationFailed

/-- `solo_monomorphize` from `rendezvous.rs`: negotiate against ourselves —
monomorphize with the peer offers set to the stack's own offers. -/
def solo_monomorphize (S : Stack) : Except NegError Nonce :=
  monomorphize S (offers S)

/-- How a call to `negotiate_rendezvous` can end. -/
inductive NegotiateOutcome where
  | ok (applied : ConcreteStack) (used : Nonce)
  | err
  | panic
deriving DecidableEq, Repr

/-- `negotiate_rendezvous` from `rendezvous.rs` run against the state the
store holds for the address: self-monomorphize (an error here is returned as
an error), `try_init` the favored nonce, adopt the picked nonce on `Matched`
and the stored entry's nonce on `NoMatch`, then
`stack.apply(entry.nonce).expect(..)` — the `.expect` panics when `apply`
returns an error. -/
def negotiate_rendezvous (stack : Stack) (store : Option ConnState) :
    NegotiateOutcome :=
  match solo_monomorphize stack with
  | .error _ => .err
  | .ok offer =>
    let entry : RendezvousEntry :=
      match (try_init store ⟨offer⟩).2 with
      | .Matched _ _ => ⟨offer⟩
      | .NoMatch e _ _ => e
    match applyStack stack entry.nonce with
    | .ok applied => .ok applied entry.nonce
    | .error _ => .panic

/-- The offer lists held by one `UpgradeHandle` (`left_offers` and
`right_offers`, collected by `UpgradeSelect::from_select` from the two
branches of the select). -/
structure UpgradeHandle where
  left_offers : List Nonce
  right_offers : List Nonce
deriving DecidableEq, Repr

/-- `UpgradeHandle::check_compatibility` from `rendezvous.rs`: some offer of
either branch is partially valid against the proposed stack. -/
def check_compatibility (uh : UpgradeHandle) (new_stack : Nonce) : Bool :=
  (uh.left_offers ++ uh.right_offers).any fun opt =>
    stack_pair_partial_valid new_stack opt

/-- The mutable fields of `StackUpgradeHandle` used by `handle_notify`. -/
structure StackUpgradeHandleState where
  upgrade_handles : List UpgradeHandle
  offers : List Nonce
  curr_entry : RendezvousEntry
  curr_num_participants : Nat
  curr_round : Nat
deriving DecidableEq, Repr

/-- The backend calls and watch-channel sends `handle_notify` performs, in
order. -/
inductive MonitorEffect where
  | stagedUpdate (round : Nat)
  | transition (entry : RendezvousEntry)
  | switchTo (idx : Nat) (nonce : Nonce)
  | participantsChanged (n : Nat)
deriving DecidableEq, Repr

/-- `StackUpgradeHandle::handle_notify` from `rendezvous.rs`.  `backendRound`
is the round number the backend call made by the taken branch returns
(`staged_update` in the compatible branch, `transition` in the incompatible
one). -/
def handle_notify (st : StackUpgradeHandleState)
    (notify_res : Except Unit NegotiateRendezvousResult) (backendRound : Nat) :
    Except Unit (StackUpgradeHandleState × List MonitorEffect) :=
  match notify_res with
  | .error e => .error e
  | .ok (.Matched num r) =>
    if num = st.curr_num_participants then
      .ok ({ st with curr_round := r }, [])
    else
      .ok (st, [.participantsChanged num])
  | .ok (.NoMatch entry num r) =>
    let st1 := { st with curr_num_participants := num, curr_round := r }
    if st.upgrade_handles.all fun uh => check_compatibility uh entry.nonce then
      .ok ({ st1 with curr_round := backendRound, curr_entry := entry },
        .stagedUpdate st1.curr_round
          :: (List.range st.upgrade_handles.length).map fun i =>
              .switchTo i entry.nonce)
    else
      .ok ({ st1 with curr_round := backendRound }, [.transition st.curr_entry])

/-- The inner check of `find_stack_from_stub`: every capability entry of the
stub nonce `s` appears in `stack` with the same implementation guid. -/
def stubContained (s stack : Nonce) : Bool :=
  s.all fun e =>
    match lookup stack e.1 with
    | some o => o.impl_guid == e.2.impl_guid
    | none => false

/-- `find_stack_from_stub` from `rendezvous.rs`: the first nonce of `stacks`
containing some element of `stub`; `none` models the `unreachable!()` panic
reached when the loops finish without a match. -/
def find_stack_from_stub (stb stks : List Nonce) : Option Nonce :=
  stks.find? fun stack => stb.any fun s => stubContained s stack

/-- State of an `UpgradeEitherConn`: the saved Select branches, the shared
base transport (identified by a tag), the current active concrete connection,
and the watch channel's state (`pending = some v` iff `has_changed()` would
report a pending nonce `v`). -/
structure UpgradeEitherConn where
  left : Stack
  right : Stack
  base : Nat
  current : ConcreteStack
  pending : Option Nonce
deriving DecidableEq, Repr

/-- `UpgradeEitherConn::try_upgrade` from `rendezvous.rs`: re-apply the saved
Select branches to the new nonce, reconnect the result over the shared base
transport, and swap it into `current` under the lock. -/
def try_upgrade (c : UpgradeEitherConn) (new_offers : Nonce) :
    Except NegError UpgradeEitherConn :=
  match applyStack (.sel c.left c.right .unspec) new_offers with
  | .ok applied => .ok { c with current := applied }
  | .error e => .error e

/-- The observable steps of one `UpgradeEitherConn::send` call, in order. -/
inductive SendEvent where
  | appliedNonce (v : Nonce)
  | reconnected (base : Nat)
  | swapped (newCurrent : ConcreteStack)
  | sentOn (current : ConcreteStack)
deriving DecidableEq, Repr

/-- `UpgradeEitherConn::send` from `rendezvous.rs`: when the watch channel
holds a pending nonce, take it (`borrow_and_update`), upgrade via
`try_upgrade` (apply, reconnect over the base, swap `current`), and only
then send the batch on the new `current`; otherwise send directly on
`current`. -/
def send (c : UpgradeEitherConn) :
    Except NegError (UpgradeEitherConn × List SendEvent) :=
  match c.pending with
  | some v =>
    match try_upgrade { c with pending := none } v with
    | .ok c1 =>
      .ok (c1, [.appliedNonce v, .reconnected c.base, .swapped c1.current,
        .sentOn c1.current])
    | .error e => .error e
  | none => .ok (c, [.sentOn c.current])

/-- Which future wins one iteration of the `select` race inside
`UpgradeEitherConn::recv`. -/
inductive RaceWinner where
  | watchFirst (v : Nonce)
  | recvFirst (slots : List (Option Nat))
deriving DecidableEq, Repr

/-- The observable steps of one `UpgradeEitherConn::recv` call. -/
inductive RecvEvent where
  | cancelledRecv
  | upgraded (newCurrent : ConcreteStack)
  | returned (msgs : List Nat)
deriving DecidableEq, Repr

/-- `map_while(Option::take)` over the receive slots: the longest leading run
of filled slots. -/
def leadingSomes : List (Option Nat) → List Nat
  | [] => []
  | none :: _ => []
  | some x :: rest => x :: leadingSomes rest

/-- `UpgradeEitherConn::recv` from `rendezvous.rs`, driven by the schedule of
race winners: if the watch fires first the pending inner recv future is
dropped (releasing its lock), the new nonce is applied via `try_upgrade`, and
the loop retries; if the inner recv completes first its filled slots are
copied into the caller's buffer and returned.  `none` means the call is still
pending. -/
def recv (c : UpgradeEitherConn) : List RaceWinner →
    Option (Except NegError (UpgradeEitherConn × List Nat × List RecvEvent))
  | [] => none
  | .recvFirst slots :: _ =>
    some (.ok (c, leadingSomes slots, [.returned (leadingSomes slots)]))
  | .watchFirst v :: rest =>
    match try_upgrade c v with
    | .error e => some (.error e)
    | .ok c1 =>
      match recv c1 rest with
      | none => none
      | some (.error e) => some (.error e)
      | some (.ok (c2, msgs, evs)) =>
        some (.ok (c2, msgs, .cancelledRecv :: .upgraded c1.current :: evs))

/-- Concrete offer used by witnesses: a both-sided capability, impl 10. -/
def oA : Offer := ⟨10, [], none⟩

/-- Concrete offer used by witnesses: a both-sided capability, impl 20. -/
def oB : Offer := ⟨20, [], none⟩

/-- Concrete offer used by witnesses: a both-sided capability, impl 30. -/
def oC : Offer := ⟨30, [], none⟩

/-- Concrete offer used by witnesses: a both-sided capability, impl 40. -/
def oD : Offer := ⟨40, [], none⟩

/-- Concrete leaf layer A (capability guid 1). -/
def leafA : Stack := .leaf ⟨1, oA, 0⟩

/-- Concrete leaf layer B (capability guid 2). -/
def leafB : Stack := .leaf ⟨2, oB, 0⟩

/-- Concrete leaf layer C (capability guid 3). -/
def leafC : Stack := .leaf ⟨3, oC, 0⟩

/-- The stack shape of the `single_swap` test:
`Sequence(A, Select(B, C))`, preferring the left branch. -/
def exStack : Stack := .seq leafA (.sel leafB leafC .left)

/-- A nonce of a peer whose stack is `Sequence(A, D)`: it shares capability A
with `exStack` but resolves neither select branch of `exStack`. -/
def exPeerNonce : Nonce := [(1, oA), (4, oD)]

/-- Rendezvous state in which a peer with nonce `exPeerNonce` already holds
the address. -/
def exStore : ConnState := ⟨1, 0, ⟨exPeerNonce⟩, none, 0⟩

theorem stack_pair_partial_valid_go_spec (server : Nonce) (client : List (Nat × Offer))
    (found : Bool) :
    stack_pair_partial_valid_go server client found =
      (client.all (offerRuleOk server) && (found || sharesGuid client server)) := by
  induction client generalizing found with
  | nil => simp [stack_pair_partial_valid_go, sharesGuid]
  | cons e rest ih =>
    obtain ⟨guid, offer⟩ := e
    cases hs : offer.sidedness with
    | some univ =>
      cases hl : lookup server guid with
      | some so =>
        cases hc : have_all univ (offer.available ++ so.available) with
        | true =>
          simp [stack_pair_partial_valid_go, hs, hl, hc, ih, List.all_cons,
            offerRuleOk, sharesGuid]
        | false =>
          simp [stack_pair_partial_valid_go, hs, hl, hc, List.all_cons, offerRuleOk]
      | none =>
        cases hc : have_all univ offer.available with
        | true =>
          simp [stack_pair_partial_valid_go, hs, hl, hc, ih, List.all_cons,
            offerRuleOk, sharesGuid, Bool.or_assoc]
        | false =>
          simp [stack_pair_partial_valid_go, hs, hl, hc, List.all_cons, offerRuleOk]
    | none =>
      cases hl : lookup server guid with
      | some so =>
        cases hc : (offer.impl_guid == so.impl_guid
            && have_all offer.available so.available
            && have_all so.available offer.available) with
        | true =>
          simp [stack_pair_partial_valid_go, hs, hl, hc, ih, List.all_cons,
            offerRuleOk, sharesGuid]
        | false =>
          simp [stack_pair_partial_valid_go, hs, hl, hc, List.all_cons, offerRuleOk]
      | none =>
        simp [stack_pair_partial_valid_go, hs, hl, ih, List.all_cons,
          offerRuleOk, sharesGuid]

/-- Claim C7: `stack_pair_partial_valid(a, b)` returns true iff at least one
capability guid is shared between `a` and `b` and every examined capability of
`a` satisfies its per-capability rule: a both-sided capability present in both
requires equal `impl_guid` and equal available sets, and a one-sided
capability with a closed universe requires the joint available sets to cover
the universe. -/
theorem C7_stack_pair_partial_valid_iff (a b : Nonce) :
    stack_pair_partial_valid a b = true ↔
      ((∃ e ∈ a, (lookup b e.1).isSome = true) ∧ ∀ e ∈ a, offerRuleOk b e = true) := by
  rw [stack_pair_partial_valid, stack_pair_partial_valid_go_spec]
  simp only [Bool.false_or, Bool.and_eq_true, List.all_eq_true, sharesGuid,
    List.any_eq_true]
  tauto

end Tbm

namespace Tbm

/-- Claim C4: `try_init` stores the offer as current with round 0 and the
caller as sole participant and returns `Matched` when the address is fresh;
when state exists and matches the offer it adds the caller and returns
`Matched` with count and round; otherwise it still adds the caller and
returns `NoMatch` carrying the stored current entry, count, and round. -/
theorem C4_try_init_cases (offer : RendezvousEntry) (s : ConnState) :
    (try_init none offer = (⟨1, 0, offer, none, 0⟩, .Matched 1 0))
    ∧ (s.curr_semantics = offer →
        try_init (some s) offer =
          ({ s with num_participants := s.num_participants + 1 },
           .Matched (s.num_participants + 1) s.round_number))
    ∧ (s.curr_semantics ≠ offer →
        try_init (some s) offer =
          ({ s with num_participants := s.num_participants + 1 },
           .NoMatch s.curr_semantics (s.num_participants + 1) s.round_number)) := by
  refine ⟨?_, ?_, ?_⟩
  · simp [try_init, Option.getD]
  · intro h
    simp [try_init, Option.getD, h]
  · intro h
    simp [try_init, Option.getD, h]

/-- Witness for C4 at concrete inputs: one fresh-address call, one matching
join, one non-matching join. -/
theorem C4_try_init_cases_witness :
    (try_init none ⟨[(1, ⟨10, [0], none⟩)]⟩ =
      (⟨1, 0, ⟨[(1, ⟨10, [0], none⟩)]⟩, none, 0⟩, .Matched 1 0))
    ∧ (try_init (some ⟨1, 0, ⟨[(1, ⟨10, [0], none⟩)]⟩, none, 0⟩) ⟨[(1, ⟨10, [0], none⟩)]⟩ =
        (⟨2, 0, ⟨[(1, ⟨10, [0], none⟩)]⟩, none, 0⟩, .Matched 2 0))
    ∧ (try_init (some ⟨2, 0, ⟨[(1, ⟨10, [0], none⟩)]⟩, none, 0⟩) ⟨[(2, ⟨20, [0], none⟩)]⟩ =
        (⟨3, 0, ⟨[(1, ⟨10, [0], none⟩)]⟩, none, 0⟩,
         .NoMatch ⟨[(1, ⟨10, [0], none⟩)]⟩ 3 0)) := by
  refine ⟨(C4_try_init_cases ⟨[(1, ⟨10, [0], none⟩)]⟩ ⟨1, 0, ⟨[(1, ⟨10, [0], none⟩)]⟩, none, 0⟩).1,
          ?_, ?_⟩
  · exact (C4_try_init_cases ⟨[(1, ⟨10, [0], none⟩)]⟩
      ⟨1, 0, ⟨[(1, ⟨10, [0], none⟩)]⟩, none, 0⟩).2.1 (by decide)
  · exact (C4_try_init_cases ⟨[(2, ⟨20, [0], none⟩)]⟩
      ⟨2, 0, ⟨[(1, ⟨10, [0], none⟩)]⟩, none, 0⟩).2.2 (by decide)

/-- `staged_update` registrations change only the commit counter: the round,
the staged entry, the current semantics and the participant count are
untouched, and `commit_count` grows by the number of registrations. -/
theorem staged_update_iter_state (s : ConnState) (r k : Nat) (s2 : ConnState)
    (h : staged_update_iter s r k = some s2) :
    s2.round_number = s.round_number ∧ s2.staged = s.staged
      ∧ s2.curr_semantics = s.curr_semantics
      ∧ s2.num_participants = s.num_participants
      ∧ s2.commit_count = s.commit_count + k := by
  induction k generalizing s2 with
  | zero =>
    simp only [staged_update_iter] at h
    cases h
    simp
  | succ k ih =>
    simp only [staged_update_iter, Option.bind_eq_some] at h
    obtain ⟨s1, h1, h2⟩ := h
    obtain ⟨hr, hs, hc, hn, hcc⟩ := ih s1 h1
    simp only [staged_update_register] at h2
    by_cases hround : s1.round_number = r
    · simp only [hround, if_true] at h2
      by_cases hstg : s1.staged.isSome
      · simp only [hstg, if_true, Option.some_inj] at h2
        subst h2
        simp_all
        omega
      · simp [hstg] at h2
    · simp [hround] at h2

/-- Claim C3: two-phase commit in `MockRendezvous::transition`.  Phase 1
stages the new entry with the round incremented and `commit_count = 1`,
leaving the current semantics unchanged.  A phase-2 poll with
`commit_count ≠ num_participants` never changes the state (it waits, or fails
if the round moved on), so the current semantics change only when
`commit_count` equals the participant count.  When, after phase 1 and any
number of `staged_update` registrations, `commit_count` reaches the
participant count, the poll installs the staged entry as current, clears the
staged entry, resets `commit_count`, increments the round again, and returns
`round + 2` relative to the round before the call. -/
theorem C3_transition_two_phase (s0 s2 : ConnState) (e : RendezvousEntry) (k : Nat)
    (hstage : staged_update_iter (transition_phase1 s0 e).1 (transition_phase1 s0 e).2 k
      = some s2) :
    ((transition_phase1 s0 e).1
        = { s0 with staged := some e, round_number := s0.round_number + 1,
                    commit_count := 1 }
      ∧ (transition_phase1 s0 e).2 = s0.round_number + 1
      ∧ (transition_phase1 s0 e).1.curr_semantics = s0.curr_semantics)
    ∧ (∀ s r, s.commit_count ≠ s.num_participants →
        transition_phase2_poll s r
          = (if r < s.round_number then .failed s else .waiting s))
    ∧ (s2.commit_count = s2.num_participants →
        transition_phase2_poll s2 (transition_phase1 s0 e).2
          = .committed { s2 with round_number := s2.round_number + 1,
                                 commit_count := 0, staged := none,
                                 curr_semantics := e } (s0.round_number + 2)) := by
  obtain ⟨hr, hs, hc, hn, hcc⟩ :=
    staged_update_iter_state _ _ _ _ hstage
  refine ⟨⟨rfl, rfl, rfl⟩, ?_, ?_⟩
  · intro s r hne
    simp [transition_phase2_poll, hne]
  · intro hcommit
    have hstaged : s2.staged = some e := by
      simpa [transition_phase1] using hs
    have hround : s2.round_number = s0.round_number + 1 := by
      simpa [transition_phase1] using hr
    simp [transition_phase2_poll, hcommit, hstaged, hround]

/-- Witness for C3: a two-participant address at round 0; the proposer stages
a new entry, one `staged_update` registration brings `commit_count` to the
participant count, and the poll commits at round 2 with the new entry
current. -/
theorem C3_transition_two_phase_witness :
    staged_update_iter
        (transition_phase1 ⟨2, 0, ⟨[(1, ⟨10, [0], none⟩)]⟩, none, 0⟩
          ⟨[(2, ⟨20, [0], none⟩)]⟩).1
        (transition_phase1 ⟨2, 0, ⟨[(1, ⟨10, [0], none⟩)]⟩, none, 0⟩
          ⟨[(2, ⟨20, [0], none⟩)]⟩).2 1
      = some ⟨2, 1, ⟨[(1, ⟨10, [0], none⟩)]⟩, some ⟨[(2, ⟨20, [0], none⟩)]⟩, 2⟩
    ∧ transition_phase2_poll
        ⟨2, 1, ⟨[(1, ⟨10, [0], none⟩)]⟩, some ⟨[(2, ⟨20, [0], none⟩)]⟩, 2⟩ 1
      = .committed ⟨2, 2, ⟨[(2, ⟨20, [0], none⟩)]⟩, none, 0⟩ 2 := by
  constructor
  · decide
  · exact (C3_transition_two_phase ⟨2, 0, ⟨[(1, ⟨10, [0], none⟩)]⟩, none, 0⟩
      ⟨2, 1, ⟨[(1, ⟨10, [0], none⟩)]⟩, some ⟨[(2, ⟨20, [0], none⟩)]⟩, 2⟩
      ⟨[(2, ⟨20, [0], none⟩)]⟩ 1 (by decide)).2.2 (by decide)

/-- Unchanged `Matched` responses are skipped by the `notify` polling loop. -/
theorem notify_loop_skip (n r k : Nat) (l : List PollOutcome) :
    notify_loop n (List.replicate k (.Ok (.Matched n r)) ++ l) = notify_loop n l := by
  induction k with
  | zero => simp
  | succ k ih => simpa [List.replicate_succ, notify_loop] using ih

/-- Claim C8: one call to the default `notify` emits exactly one event.  While
every poll reports `Matched` with the unchanged participant count, `notify`
does not return; the first changed response (a `NoMatch` for a new round, or a
result with a changed participant count) is returned, and nothing after it is
consumed; and a first poll that reports `NoMatch` is returned immediately. -/
theorem C8_notify_one_event (cr n k : Nat) (p : PollOutcome)
    (rest : List PollOutcome) (e : RendezvousEntry) (num r : Nat)
    (hchange : ∀ r', p ≠ .Ok (.Matched n r')) :
    (notify cr (.Ok (.Matched n cr) :: List.replicate k (.Ok (.Matched n cr))) = none)
    ∧ (notify cr (.Ok (.Matched n cr)
          :: (List.replicate k (.Ok (.Matched n cr)) ++ p :: rest))
        = notify_loop n [p])
    ∧ (notify_loop n [p]).isSome = true
    ∧ (notify cr (.Ok (.NoMatch e num r) :: rest)
        = some (.returns (.NoMatch e num r))) := by
  have hloop : ∀ q : PollOutcome, (∀ r', q ≠ .Ok (.Matched n r')) →
      ∀ l, notify_loop n (q :: l) = notify_loop n [q]
        ∧ (notify_loop n [q]).isSome = true := by
    intro q hq l
    cases q with
    | Err => simp [notify_loop]
    | Ok res =>
      cases res with
      | Matched nn rr =>
        have hne : nn ≠ n := fun h2 => hq rr (by rw [h2])
        simp [notify_loop, hne]
      | NoMatch ee nn rr => simp [notify_loop]
  refine ⟨?_, ?_, (hloop p hchange []).2, by simp [notify]⟩
  · have h := notify_loop_skip n cr k ([] : List PollOutcome)
    simp only [List.append_nil] at h
    simp [notify, h, notify_loop]
  · have h := notify_loop_skip n cr k (p :: rest)
    simp [notify, h, (hloop p hchange rest).1]

/-- Witness for C8: two unchanged polls are skipped and the third poll, which
reports a third participant, is the single returned event. -/
theorem C8_notify_one_event_witness :
    notify 0 (.Ok (.Matched 2 0)
        :: (List.replicate 2 (.Ok (.Matched 2 0)) ++ .Ok (.Matched 3 0) :: []))
      = some (.returns (.Matched 3 0)) := by
  have h := (C8_notify_one_event 0 2 2 (.Ok (.Matched 3 0)) []
    ⟨[]⟩ 0 0 (fun r' => by simp)).2.1
  rw [h]
  decide

/-- Every stack enumerates at least one offer. -/
theorem exists_mem_offers (S : Stack) : ∃ n, n ∈ offers S := by
  induction S with
  | leaf i => exact ⟨[(i.guid, i.offer)], by simp [offers]⟩
  | seq a b iha ihb =>
    obtain ⟨na, ha⟩ := iha
    obtain ⟨nb, hb⟩ := ihb
    refine ⟨na ++ nb, ?_⟩
    simp only [offers, List.mem_flatMap, List.mem_map]
    exact ⟨na, ha, nb, hb, rfl⟩
  | sel l r p ihl ihr =>
    obtain ⟨nl, hl⟩ := ihl
    exact ⟨nl, by simp only [offers, List.mem_append]; exact Or.inl hl⟩

/-- Looking a guid up in an appended nonce falls through to the right part
when the left part does not bind it. -/
theorem lookup_append_right (h s : Nonce) (g : Nat) (hnone : lookup h g = none) :
    lookup (h ++ s) g = lookup s g := by
  induction h with
  | nil => simp
  | cons e rest ih =>
    simp only [lookup, List.cons_append, List.find?] at hnone ⊢
    cases hbg : (e.1 == g) with
    | true => simp [hbg] at hnone
    | false =>
      simp only [hbg] at hnone ⊢
      exact ih hnone

/-- A stub nonce is contained in itself extended on the left by entries that
do not shadow its guids. -/
theorem stubContained_extend (h s : Nonce)
    (hdisj : ∀ e ∈ s, lookup h e.1 = none)
    (hkeys : ∀ e ∈ s, lookup s e.1 = some e.2) :
    stubContained s (h ++ s) = true := by
  rw [stubContained, List.all_eq_true]
  intro e he
  rw [lookup_append_right h s e.1 (hdisj e he), hkeys e he]
  simp

/-- `find_stack_from_stub` returns a stack whenever some stub element is
contained in some stack of the list. -/
theorem find_stack_from_stub_isSome (stb stks : List Nonce) (s0 st : Nonce)
    (hs : s0 ∈ stb) (hst : st ∈ stks) (hc : stubContained s0 st = true) :
    (find_stack_from_stub stb stks).isSome = true := by
  rw [find_stack_from_stub, List.find?_isSome]
  refine ⟨st, hst, ?_⟩
  rw [List.any_eq_true]
  exact ⟨s0, hs, hc⟩

/-- Claim C10: `find_stack_from_stub` reaches the `unreachable!()` panic
exactly when no stack contains any stub element; and for a stub that is the
`left_offers` or `right_offers` of an `UpgradeHandle` collected from the same
stack whose `offers()` produced the stack list (shape
`Sequence(H, UpgradeSelect(l, r))`, as in `handle_trigger`, with the
spec's guid-uniqueness invariant), a matching full nonce exists and is
returned. -/
theorem C10_find_stack_from_stub (stb stks : List Nonce) (H l r : Stack) (p : Pref)
    (hnomatch : ∀ stack ∈ stks, ∀ s ∈ stb, stubContained s stack = false)
    (hdisj : ∀ h ∈ offers H, ∀ s ∈ offers l ++ offers r, ∀ e ∈ s, lookup h e.1 = none)
    (hkeys : ∀ s ∈ offers l ++ offers r, ∀ e ∈ s, lookup s e.1 = some e.2) :
    (find_stack_from_stub stb stks = none)
    ∧ ((find_stack_from_stub (offers l) (offers (.seq H (.sel l r p)))).isSome = true)
    ∧ ((find_stack_from_stub (offers r) (offers (.seq H (.sel l r p)))).isSome = true)
    ∧ (∀ m stub2, find_stack_from_stub stub2 stks = some m →
        m ∈ stks ∧ ∃ s ∈ stub2, stubContained s m = true) := by
  obtain ⟨h0, hh0⟩ := exists_mem_offers H
  obtain ⟨sl, hsl⟩ := exists_mem_offers l
  obtain ⟨sr, hsr⟩ := exists_mem_offers r
  have hmeml : ∀ s0 ∈ offers l ++ offers r, h0 ++ s0 ∈ offers (.seq H (.sel l r p)) := by
    intro s0 hs0
    simp only [offers, List.mem_flatMap, List.mem_map]
    exact ⟨h0, hh0, s0, hs0, rfl⟩
  refine ⟨?_, ?_, ?_, ?_⟩
  · rw [find_stack_from_stub, List.find?_eq_none]
    intro stack hstack hany
    rw [List.any_eq_true] at hany
    obtain ⟨s, hsmem, hcon⟩ := hany
    rw [hnomatch stack hstack s hsmem] at hcon
    exact Bool.false_ne_true hcon
  · have hl' : sl ∈ offers l ++ offers r := List.mem_append_left _ hsl
    exact find_stack_from_stub_isSome _ _ sl (h0 ++ sl) hsl (hmeml sl hl')
      (stubContained_extend h0 sl (hdisj h0 hh0 sl hl') (hkeys sl hl'))
  · have hr' : sr ∈ offers l ++ offers r := List.mem_append_right _ hsr
    exact find_stack_from_stub_isSome _ _ sr (h0 ++ sr) hsr (hmeml sr hr')
      (stubContained_extend h0 sr (hdisj h0 hh0 sr hr') (hkeys sr hr'))
  · intro m stub2 hfind
    refine ⟨List.mem_of_find?_eq_some hfind, ?_⟩
    have := List.find?_some hfind
    rwa [List.any_eq_true] at this

/-- Witness for C10: a stub unrelated to the stack list makes the function
panic, and the branch stubs of `Sequence(A, Select(B, C))` each find their
full nonce among the stack's offers. -/
theorem C10_find_stack_from_stub_witness :
    (find_stack_from_stub [[(5, oA)]] [[(6, oB)]] = none)
    ∧ ((find_stack_from_stub (offers leafB)
          (offers (.seq leafA (.sel leafB leafC .left)))).isSome = true)
    ∧ ((find_stack_from_stub (offers leafC)
          (offers (.seq leafA (.sel leafB leafC .left)))).isSome = true) := by
  have h := C10_find_stack_from_stub [[(5, oA)]] [[(6, oB)]] leafA leafB leafC .left
    (by decide) (by decide) (by decide)
  exact ⟨h.1, h.2.1, h.2.2.1⟩

/-- Claim C5: when the watch channel holds a pending nonce, `send` first
applies the new nonce to the saved Select branches, reconnects the result
over the shared base transport, swaps it into `current`, and only then sends
on the new `current` (the event trace ends with a send on the freshly applied
stack); when nothing is pending, the batch is sent directly on the unchanged
`current`. -/
theorem C5_send_upgrade_order (c : UpgradeEitherConn) (v : Nonce) (ap : ConcreteStack)
    (hpend : c.pending = some v)
    (happly : applyStack (.sel c.left c.right .unspec) v = .ok ap) :
    (send c = .ok ({ c with pending := none, current := ap },
      [.appliedNonce v, .reconnected c.base, .swapped ap, .sentOn ap]))
    ∧ (∀ c2 : UpgradeEitherConn, c2.pending = none →
        send c2 = .ok (c2, [.sentOn c2.current])) := by
  constructor
  · simp [send, hpend, try_upgrade, happly]
  · intro c2 h2
    simp [send, h2]

/-- Witness for C5: a pending switch from branch B to branch C is applied and
swapped in before the send; a quiescent connection sends directly. -/
theorem C5_send_upgrade_order_witness :
    (send ⟨leafB, leafC, 7, .selc true (.leafc 2 20), some [(3, oC)]⟩
      = .ok (⟨leafB, leafC, 7, .selc false (.leafc 3 30), none⟩,
        [.appliedNonce [(3, oC)], .reconnected 7,
         .swapped (.selc false (.leafc 3 30)), .sentOn (.selc false (.leafc 3 30))]))
    ∧ (send ⟨leafB, leafC, 7, .selc true (.leafc 2 20), none⟩
      = .ok (⟨leafB, leafC, 7, .selc true (.leafc 2 20), none⟩,
        [.sentOn (.selc true (.leafc 2 20))])) := by
  have h := C5_send_upgrade_order ⟨leafB, leafC, 7, .selc true (.leafc 2 20), some [(3, oC)]⟩
    [(3, oC)] (.selc false (.leafc 3 30)) (by decide) (by decide)
  exact ⟨h.1, h.2 ⟨leafB, leafC, 7, .selc true (.leafc 2 20), none⟩ (by decide)⟩

/-- Claim C6: `recv` races the inner receive against the watch channel.  If
the inner receive completes first, its filled slots are returned in the
caller's buffer and the schedule's remainder is untouched.  If the watch
fires first, the pending receive is cancelled, the new nonce is applied via
`try_upgrade`, and the loop retries the receive on the upgraded stack: the
call's result is the retried call's result, with the cancellation and upgrade
recorded before the retried call's events. -/
theorem C6_recv_race (c c1 : UpgradeEitherConn) (v : Nonce)
    (slots : List (Option Nat)) (rest : List RaceWinner)
    (hupg : try_upgrade c v = .ok c1) :
    (recv c (.recvFirst slots :: rest)
      = some (.ok (c, leadingSomes slots, [.returned (leadingSomes slots)])))
    ∧ (recv c1 rest = none → recv c (.watchFirst v :: rest) = none)
    ∧ (∀ c2 msgs evs, recv c1 rest = some (.ok (c2, msgs, evs)) →
        recv c (.watchFirst v :: rest)
          = some (.ok (c2, msgs, .cancelledRecv :: .upgraded c1.current :: evs))) := by
  refine ⟨rfl, ?_, ?_⟩
  · intro hnone
    simp [recv, hupg, hnone]
  · intro c2 msgs evs hsome
    simp [recv, hupg, hsome]

/-- Witness for C6: a watch event switching to branch C is applied and the
retried receive then returns the two filled slots. -/
theorem C6_recv_race_witness :
    recv ⟨leafB, leafC, 7, .selc true (.leafc 2 20), none⟩
        [.watchFirst [(3, oC)], .recvFirst [some 11, some 12, none]]
      = some (.ok (⟨leafB, leafC, 7, .selc false (.leafc 3 30), none⟩, [11, 12],
          [.cancelledRecv, .upgraded (.selc false (.leafc 3 30)),
           .returned [11, 12]])) := by
  have h := (C6_recv_race ⟨leafB, leafC, 7, .selc true (.leafc 2 20), none⟩
    ⟨leafB, leafC, 7, .selc false (.leafc 3 30), none⟩ [(3, oC)]
    [some 11, some 12, none] [.recvFirst [some 11, some 12, none]]
    (by decide)).2.2
    ⟨leafB, leafC, 7, .selc false (.leafc 3 30), none⟩ [11, 12]
    [.returned [11, 12]] (by decide)
  exact h

/-- Claim C1 (code bug): `apply` itself returns `MonomorphizationFailed`
rather than panicking on an unresolvable nonce, but `negotiate_rendezvous`
calls `stack.apply(entry.nonce).expect(..)` on the nonce adopted from a
`try_init` `NoMatch` result, so when that peer nonce resolves neither branch
of the local `Select` the call panics instead of returning the error: here
the local stack `Sequence(A, Select(B, C))` joins an address whose current
nonce comes from a peer stack `Sequence(A, D)`. -/
theorem C1_negotiate_rendezvous_panics :
    (applyStack exStack exPeerNonce = .error .MonomorphizationFailed)
    ∧ (solo_monomorphize exStack = .ok [(1, oA), (2, oB)])
    ∧ ((try_init (some exStore) ⟨[(1, oA), (2, oB)]⟩).2
        = .NoMatch ⟨exPeerNonce⟩ 2 0)
    ∧ (negotiate_rendezvous exStack (some exStore) = .panic) := by
  refine ⟨by decide, by decide, by decide, by decide⟩

/-- Claim C2: on a `NoMatch` notification, if every local `UpgradeHandle`
finds the proposed nonce compatible, `handle_notify` calls `staged_update`
with the (just-updated) current round and then switches every handle to the
proposed nonce; if any handle finds it incompatible, it instead calls
`transition` with the previously current entry and performs no switch at
all. -/
theorem C2_handle_notify_cases (st : StackUpgradeHandleState) (entry : RendezvousEntry)
    (num r br : Nat) :
    ((st.upgrade_handles.all fun uh => check_compatibility uh entry.nonce) = true →
      handle_notify st (.ok (.NoMatch entry num r)) br
        = .ok ({ st with curr_num_participants := num, curr_round := br,
                         curr_entry := entry },
            .stagedUpdate r
              :: (List.range st.upgrade_handles.length).map fun i =>
                  .switchTo i entry.nonce))
    ∧ ((st.upgrade_handles.all fun uh => check_compatibility uh entry.nonce) = false →
      handle_notify st (.ok (.NoMatch entry num r)) br
        = .ok ({ st with curr_num_participants := num, curr_round := br },
            [.transition st.curr_entry])
      ∧ (∀ i nn, MonitorEffect.switchTo i nn ∉
          ([.transition st.curr_entry] : List MonitorEffect))) := by
  constructor
  · intro hcompat
    simp [handle_notify, hcompat]
  · intro hincompat
    refine ⟨by simp [handle_notify, hincompat], by simp⟩

/-- Witness for C2: a monitor with one `UpgradeHandle` over branches B and C
accepts a proposed `Sequence(A, B)` nonce (staging then switching), and
rejects a proposed `Sequence(A, D)` nonce (rolling back to the previous
entry, with no switch). -/
theorem C2_handle_notify_cases_witness :
    (handle_notify ⟨[⟨[[(2, oB)]], [[(3, oC)]]⟩], [[(1, oA), (2, oB)], [(1, oA), (3, oC)]],
        ⟨[(1, oA), (3, oC)]⟩, 1, 0⟩
        (.ok (.NoMatch ⟨[(1, oA), (2, oB)]⟩ 2 1)) 2
      = .ok (⟨[⟨[[(2, oB)]], [[(3, oC)]]⟩], [[(1, oA), (2, oB)], [(1, oA), (3, oC)]],
          ⟨[(1, oA), (2, oB)]⟩, 2, 2⟩,
        [.stagedUpdate 1, .switchTo 0 [(1, oA), (2, oB)]]))
    ∧ (handle_notify ⟨[⟨[[(2, oB)]], [[(3, oC)]]⟩], [[(1, oA), (2, oB)], [(1, oA), (3, oC)]],
        ⟨[(1, oA), (3, oC)]⟩, 1, 0⟩
        (.ok (.NoMatch ⟨[(1, oA), (4, oD)]⟩ 2 1)) 3
      = .ok (⟨[⟨[[(2, oB)]], [[(3, oC)]]⟩], [[(1, oA), (2, oB)], [(1, oA), (3, oC)]],
          ⟨[(1, oA), (3, oC)]⟩, 2, 3⟩,
        [.transition ⟨[(1, oA), (3, oC)]⟩])) := by
  constructor
  · have h := (C2_handle_notify_cases
      ⟨[⟨[[(2, oB)]], [[(3, oC)]]⟩], [[(1, oA), (2, oB)], [(1, oA), (3, oC)]],
        ⟨[(1, oA), (3, oC)]⟩, 1, 0⟩ ⟨[(1, oA), (2, oB)]⟩ 2 1 2).1 (by decide)
    rw [h]
    decide
  · have h := ((C2_handle_notify_cases
      ⟨[⟨[[(2, oB)]], [[(3, oC)]]⟩], [[(1, oA), (2, oB)], [(1, oA), (3, oC)]],
        ⟨[(1, oA), (3, oC)]⟩, 1, 0⟩ ⟨[(1, oA), (4, oD)]⟩ 2 1 3).2 (by decide)).1
    rw [h]

/-- The lexicographic order on guid-pair lists is irreflexive. -/
theorem pairsLtB_irrefl (l : List (Nat × Nat)) : pairsLtB l l = false := by
  induction l with
  | nil => rfl
  | cons a t ih => simp [pairsLtB, ih]

set_option maxHeartbeats 1000000 in
/-- The lexicographic order on guid-pair lists is transitive. -/
theorem pairsLtB_trans {l1 l2 l3 : List (Nat × Nat)} (h12 : pairsLtB l1 l2 = true)
    (h23 : pairsLtB l2 l3 = true) : pairsLtB l1 l3 = true := by
  induction l1 generalizing l2 l3 with
  | nil =>
    cases l2 with
    | nil => simp [pairsLtB] at h12
    | cons b bs =>
      cases l3 with
      | nil => simp [pairsLtB] at h23
      | cons c cs => rfl
  | cons a as ih =>
    cases l2 with
    | nil => simp [pairsLtB] at h12
    | cons b bs =>
      cases l3 with
      | nil => simp [pairsLtB] at h23
      | cons c cs =>
        simp only [pairsLtB] at h12 h23 ⊢
        split_ifs at h12 h23 ⊢ <;>
          first
          | rfl
          | omega
          | exact (Bool.false_ne_true h12).elim
          | exact (Bool.false_ne_true h23).elim
          | exact ih h12 h23

/-- Two guid-pair lists neither of which is lexicographically below the other
are equal. -/
theorem pairsLtB_total_eq {l1 l2 : List (Nat × Nat)} (h12 : pairsLtB l1 l2 = false)
    (h21 : pairsLtB l2 l1 = false) : l1 = l2 := by
  induction l1 generalizing l2 with
  | nil =>
    cases l2 with
    | nil => rfl
    | cons b bs => simp [pairsLtB] at h12
  | cons a as ih =>
    cases l2 with
    | nil => simp [pairsLtB] at h21
    | cons b bs =>
      obtain ⟨a1, a2⟩ := a
      obtain ⟨b1, b2⟩ := b
      simp only [pairsLtB] at h12 h21
      split_ifs at h12 h21 <;> try omega
      have h1 : a1 = b1 := by omega
      have h2 : a2 = b2 := by omega
      rw [h1, h2, ih h12 h21]

/-- The composite pick-key order is irreflexive. -/
theorem keyLtB_irrefl (k : PickKey) : keyLtB k k = false := pairsLtB_irrefl _

/-- The composite pick-key order is transitive. -/
theorem keyLtB_trans {a b c : PickKey} (h12 : keyLtB a b = true)
    (h23 : keyLtB b c = true) : keyLtB a c = true := pairsLtB_trans h12 h23

/-- Two pick keys neither of which is below the other are equal. -/
theorem keyLtB_total_eq {a b : PickKey} (h12 : keyLtB a b = false)
    (h21 : keyLtB b a = false) : a = b := by
  obtain ⟨a1, a2, a3, a4⟩ := a
  obtain ⟨b1, b2, b3, b4⟩ := b
  have h := pairsLtB_total_eq h12 h21
  simp only [List.cons.injEq, Prod.mk.injEq] at h
  obtain ⟨⟨h1, h2⟩, ⟨h3, _⟩, h4⟩ := h
  simp [h1, h2, h3, h4]

/-- The fold inside `chooseBest` returns the accumulator or a list element,
and the result is maximal among the accumulator and all elements. -/
theorem chooseBest_foldl (k : Nonce → PickKey) (l : List Nonce) (acc : Nonce) :
    ((l.foldl (fun a m => if keyLtB (k a) (k m) then m else a) acc) = acc
      ∨ (l.foldl (fun a m => if keyLtB (k a) (k m) then m else a) acc) ∈ l)
    ∧ keyLtB (k (l.foldl (fun a m => if keyLtB (k a) (k m) then m else a) acc)) (k acc)
        = false
    ∧ ∀ x ∈ l,
        keyLtB (k (l.foldl (fun a m => if keyLtB (k a) (k m) then m else a) acc)) (k x)
          = false := by
  induction l generalizing acc with
  | nil => exact ⟨Or.inl rfl, keyLtB_irrefl _, by intro x hx; cases hx⟩
  | cons m t ih =>
    by_cases hlt : keyLtB (k acc) (k m) = true
    · rw [List.foldl_cons, if_pos hlt]
      obtain ⟨hmem, hacc, hall⟩ := ih m
      refine ⟨?_, ?_, ?_⟩
      · cases hmem with
        | inl h => exact Or.inr (by rw [h]; exact List.mem_cons_self m t)
        | inr h => exact Or.inr (List.mem_cons_of_mem m h)
      · cases hres : keyLtB (k (t.foldl (fun a m => if keyLtB (k a) (k m) then m else a) m))
          (k acc) with
        | false => rfl
        | true => rw [keyLtB_trans hres hlt] at hacc; cases hacc
      · intro x hx
        cases List.mem_cons.mp hx with
        | inl h => rw [h]; exact hacc
        | inr h => exact hall x h
    · rw [List.foldl_cons, if_neg hlt]
      obtain ⟨hmem, hacc, hall⟩ := ih acc
      refine ⟨?_, hacc, ?_⟩
      · cases hmem with
        | inl h => exact Or.inl h
        | inr h => exact Or.inr (List.mem_cons_of_mem m h)
      · intro x hx
        cases List.mem_cons.mp hx with
        | inl h =>
          rw [h]
          cases hres : keyLtB (k (t.foldl (fun a m => if keyLtB (k a) (k m) then m else a) acc))
            (k m) with
          | false => rfl
          | true =>
            exfalso
            cases hra : keyLtB (k acc)
              (k (t.foldl (fun a m => if keyLtB (k a) (k m) then m else a) acc)) with
            | true => exact hlt (keyLtB_trans hra hres)
            | false =>
              have hek := keyLtB_total_eq hacc hra
              rw [hek] at hres
              exact hlt hres
        | inr h => exact hall x h

/-- `chooseBest` returns a member of its candidate list, maximal in the pick
order. -/
theorem chooseBest_spec (k : Nonce → PickKey) (l : List Nonce) (m : Nonce)
    (h : chooseBest k l = some m) :
    m ∈ l ∧ ∀ x ∈ l, keyLtB (k m) (k x) = false := by
  cases l with
  | nil => cases h
  | cons n t =>
    simp only [chooseBest, Option.some_inj] at h
    obtain ⟨hmem, hacc, hall⟩ := chooseBest_foldl k t n
    subst h
    constructor
    · cases hmem with
      | inl hh => rw [hh]; exact List.mem_cons_self n t
      | inr hh => exact List.mem_cons_of_mem n hh
    · intro x hx
      cases List.mem_cons.mp hx with
      | inl hh => rw [hh]; exact hacc
      | inr hh => exact hall x hh

/-- Two `chooseBest` runs agree when their candidate lists have the same
members, their key functions agree on those members, and the key determines
the candidate. -/
theorem chooseBest_congr (k1 k2 : Nonce → PickKey) (l1 l2 : List Nonce)
    (hmem : ∀ n, n ∈ l1 ↔ n ∈ l2)
    (hagree : ∀ n ∈ l1, k1 n = k2 n)
    (hinj : ∀ m1 ∈ l1, ∀ m2 ∈ l1, k1 m1 = k1 m2 → m1 = m2) :
    chooseBest k1 l1 = chooseBest k2 l2 := by
  cases hc1 : chooseBest k1 l1 with
  | none =>
    cases hc2 : chooseBest k2 l2 with
    | none => rfl
    | some m2 =>
      obtain ⟨hm2, _⟩ := chooseBest_spec k2 l2 m2 hc2
      have : m2 ∈ l1 := (hmem m2).mpr hm2
      cases l1 with
      | nil => cases this
      | cons a t => cases hc1
  | some m1 =>
    obtain ⟨hm1, hmax1⟩ := chooseBest_spec k1 l1 m1 hc1
    cases hc2 : chooseBest k2 l2 with
    | none =>
      have : m1 ∈ l2 := (hmem m1).mp hm1
      cases l2 with
      | nil => cases this
      | cons a t => cases hc2
    | some m2 =>
      obtain ⟨hm2, hmax2⟩ := chooseBest_spec k2 l2 m2 hc2
      have hm2' : m2 ∈ l1 := (hmem m2).mpr hm2
      have h12 : keyLtB (k1 m1) (k1 m2) = false := hmax1 m2 hm2'
      have h21 : keyLtB (k1 m2) (k1 m1) = false := by
        have := hmax2 m1 ((hmem m1).mp hm1)
        rwa [← hagree m2 hm2', ← hagree m1 hm1] at this
      rw [hinj m1 hm1 m2 hm2' (keyLtB_total_eq h12 h21)]

/-- `implSet` distributes over nonce append. -/
theorem implSet_append (n1 n2 : Nonce) :
    implSet (n1 ++ n2) = implSet n1 ++ implSet n2 := by
  simp [implSet]

/-- `subsetB` splits over an appended left argument. -/
theorem subsetB_append_iff (a b c : List Nat) :
    subsetB (a ++ b) c = (subsetB a c && subsetB b c) := by
  simp [subsetB, List.all_append]

/-- A list is a subset of itself extended on the right. -/
theorem subsetB_left_append (a b : List Nat) : subsetB a (a ++ b) = true := by
  rw [subsetB, List.all_eq_true]
  intro x hx
  exact List.elem_iff.mpr (List.mem_append_left b hx)

/-- Membership in a Sequence node's offers. -/
theorem mem_offers_seq {a b : Stack} {n : Nonce} :
    n ∈ offers (.seq a b) ↔ ∃ na ∈ offers a, ∃ nb ∈ offers b, n = na ++ nb := by
  simp only [offers, List.mem_flatMap, List.mem_map]
  constructor
  · rintro ⟨na, hna, nb, hnb, rfl⟩
    exact ⟨na, hna, nb, hnb, rfl⟩
  · rintro ⟨na, hna, nb, hnb, rfl⟩
    exact ⟨na, hna, nb, hnb, rfl⟩

/-- Every offer of a Sequence contains one of the head's offers. -/
theorem offers_seq_head_sub (Hh t : Stack) (n : Nonce) (h : n ∈ offers (.seq Hh t)) :
    ∃ hh ∈ offers Hh, subsetB (implSet hh) (implSet n) = true := by
  obtain ⟨na, hna, nb, hnb, rfl⟩ := mem_offers_seq.mp h
  refine ⟨na, hna, ?_⟩
  rw [implSet_append]
  exact subsetB_left_append _ _

/-- For a nonce that contains some offer of the head, resolving a branch
under the head is the same as resolving the branch alone. -/
theorem selMatch_seq_eq (Hh b : Stack) (n : Nonce)
    (hc : ∃ hh ∈ offers Hh, subsetB (implSet hh) (implSet n) = true) :
    selMatch (.seq Hh b) n = selMatch b n := by
  obtain ⟨h0, hh0, hsub0⟩ := hc
  cases hb : selMatch b n with
  | true =>
    obtain ⟨s0, hs0, hsub⟩ := List.any_eq_true.mp hb
    simp only [selMatch, List.any_eq_true]
    refine ⟨h0 ++ s0, mem_offers_seq.mpr ⟨h0, hh0, s0, hs0, rfl⟩, ?_⟩
    rw [implSet_append, subsetB_append_iff, hsub0, hsub]
    rfl
  | false =>
    cases hA : selMatch (.seq Hh b) n with
    | false => rfl
    | true =>
      obtain ⟨m, hm, hsub⟩ := List.any_eq_true.mp hA
      obtain ⟨na, hna, nb, hnb, rfl⟩ := mem_offers_seq.mp hm
      rw [implSet_append, subsetB_append_iff, Bool.and_eq_true] at hsub
      have hbt : selMatch b n = true := List.any_eq_true.mpr ⟨nb, hnb, hsub.2⟩
      rw [hb] at hbt
      cases hbt

/-- Rule-2 scores agree on the two associated stack shapes, for nonces
containing a head offer. -/
theorem prefScore_assoc (H x y : Stack) (p : Pref) (n : Nonce)
    (hc : ∃ hh ∈ offers H, subsetB (implSet hh) (implSet n) = true) :
    prefScore (.seq H (.sel x y p)) n = prefScore (.sel (.seq H x) (.seq H y) p) n := by
  have hx := selMatch_seq_eq H x n hc
  have hy := selMatch_seq_eq H y n hc
  simp only [prefScore, hx, hy]
  cases p <;> cases hmx : selMatch x n <;> cases hmy : selMatch y n <;>
    simp [prefScore, hmx, hmy] <;> omega

/-- Rule-3 scores agree on the two associated stack shapes, for nonces
containing a head offer. -/
theorem prioScore_assoc (H x y : Stack) (p : Pref) (n : Nonce)
    (hc : ∃ hh ∈ offers H, subsetB (implSet hh) (implSet n) = true) :
    prioScore (.seq H (.sel x y p)) n = prioScore (.sel (.seq H x) (.seq H y) p) n := by
  have hx := selMatch_seq_eq H x n hc
  have hy := selMatch_seq_eq H y n hc
  simp only [prioScore, hx, hy]
  cases hmx : selMatch x n <;> cases hmy : selMatch y n <;>
    simp [prioScore, hmx, hmy]

/-- Pick keys agree on the two associated stack shapes, for nonces containing
a head offer. -/
theorem pickKey_assoc (H x y : Stack) (p : Pref) (n : Nonce)
    (hc : ∃ hh ∈ offers H, subsetB (implSet hh) (implSet n) = true) :
    pickKey (.seq H (.sel x y p)) n = pickKey (.sel (.seq H x) (.seq H y) p) n := by
  simp only [pickKey]
  rw [prefScore_assoc H x y p n hc, prioScore_assoc H x y p n hc]

/-- `apply` success on a Sequence splits into success on both parts. -/
theorem applyStack_seq_isOk (a b : Stack) (n : Nonce) :
    (applyStack (.seq a b) n).isOk
      = ((applyStack a n).isOk && (applyStack b n).isOk) := by
  cases ha : applyStack a n with
  | error e =>
    simp only [applyStack, ha]
    rfl
  | ok ca =>
    cases hb : applyStack b n with
    | error e =>
      simp only [applyStack, ha, hb]
      rfl
    | ok cb =>
      simp only [applyStack, ha, hb]
      rfl

/-- `apply` success on a Select follows its branch resolution. -/
theorem applyStack_sel_isOk (l r : Stack) (p : Pref) (n : Nonce) :
    (applyStack (.sel l r p) n).isOk
      = (if selMatch l n then (applyStack l n).isOk
         else if selMatch r n then (applyStack r n).isOk else false) := by
  by_cases hl : selMatch l n = true
  · simp only [applyStack, hl, if_true]
    cases applyStack l n <;> rfl
  · simp only [Bool.not_eq_true] at hl
    simp only [applyStack, hl, Bool.false_eq_true, if_false]
    by_cases hr : selMatch r n = true
    · simp only [hr, if_true]
      cases applyStack r n <;> rfl
    · simp only [Bool.not_eq_true] at hr
      simp only [hr, Bool.false_eq_true, if_false]
      rfl

/-- `apply` succeeds on one associated stack shape iff it succeeds on the
other, for nonces containing a head offer. -/
theorem applyStack_assoc_isOk (H x y : Stack) (p : Pref) (n : Nonce)
    (hc : ∃ hh ∈ offers H, subsetB (implSet hh) (implSet n) = true) :
    (applyStack (.seq H (.sel x y p)) n).isOk
      = (applyStack (.sel (.seq H x) (.seq H y) p) n).isOk := by
  rw [applyStack_seq_isOk, applyStack_sel_isOk, applyStack_sel_isOk,
    selMatch_seq_eq H x n hc, selMatch_seq_eq H y n hc,
    applyStack_seq_isOk, applyStack_seq_isOk]
  cases selMatch x n <;> cases selMatch y n <;> cases (applyStack H n).isOk <;> simp

/-- A nonce is an offer of `Sequence(H, Select(x, y))` iff it is an offer of
`Select(Sequence(H, x), Sequence(H, y))`. -/
theorem mem_offers_assoc (H x y : Stack) (p : Pref) (n : Nonce) :
    n ∈ offers (.seq H (.sel x y p)) ↔ n ∈ offers (.sel (.seq H x) (.seq H y) p) := by
  have hB : offers (Stack.sel (.seq H x) (.seq H y) p)
      = offers (.seq H x) ++ offers (.seq H y) := rfl
  have hsel : offers (Stack.sel x y p) = offers x ++ offers y := rfl
  constructor
  · intro h
    obtain ⟨na, hna, nb, hnb, rfl⟩ := mem_offers_seq.mp h
    rw [hsel, List.mem_append] at hnb
    rw [hB, List.mem_append]
    cases hnb with
    | inl hh => exact Or.inl (mem_offers_seq.mpr ⟨na, hna, nb, hh, rfl⟩)
    | inr hh => exact Or.inr (mem_offers_seq.mpr ⟨na, hna, nb, hh, rfl⟩)
  · intro h
    rw [hB, List.mem_append] at h
    cases h with
    | inl hh =>
      obtain ⟨na, hna, nb, hnb, rfl⟩ := mem_offers_seq.mp hh
      exact mem_offers_seq.mpr ⟨na, hna, nb,
        by rw [hsel, List.mem_append]; exact Or.inl hnb, rfl⟩
    | inr hh =>
      obtain ⟨na, hna, nb, hnb, rfl⟩ := mem_offers_seq.mp hh
      exact mem_offers_seq.mpr ⟨na, hna, nb,
        by rw [hsel, List.mem_append]; exact Or.inr hnb, rfl⟩

/-- `any` is determined by the members of the list. -/
theorem any_congr_mem {l1 l2 : List Nonce} (f : Nonce → Bool)
    (hmem : ∀ n, n ∈ l1 ↔ n ∈ l2) : l1.any f = l2.any f := by
  cases h1 : l1.any f with
  | true =>
    obtain ⟨a, ha, hf⟩ := List.any_eq_true.mp h1
    exact (List.any_eq_true.mpr ⟨a, (hmem a).mp ha, hf⟩).symm
  | false =>
    cases h2 : l2.any f with
    | false => rfl
    | true =>
      obtain ⟨a, ha, hf⟩ := List.any_eq_true.mp h2
      have := List.any_eq_true.mpr ⟨a, (hmem a).mpr ha, hf⟩
      rw [h1] at this
      cases this

/-- A stack's offer list is never empty. -/
theorem offers_isEmpty_false (S : Stack) : (offers S).isEmpty = false := by
  obtain ⟨n, hn⟩ := exists_mem_offers S
  cases h : offers S with
  | nil => rw [h] at hn; cases hn
  | cons a t => rfl

/-- Candidates are offers. -/
theorem candidates_sub {S : Stack} {P : List Nonce} {n : Nonce}
    (h : n ∈ candidates S P) : n ∈ offers S := by
  simp only [candidates] at h
  by_cases hP : P.isEmpty
  · rw [if_pos hP] at h
    exact (List.mem_filter.mp h).1
  · rw [if_neg hP] at h
    exact (List.mem_filter.mp h).1

/-- The candidate lists of the two associated stack shapes have the same
members, for a common peer list. -/
theorem mem_candidates_assoc (H x y : Stack) (p : Pref) (P : List Nonce) (n : Nonce) :
    n ∈ candidates (.seq H (.sel x y p)) P
      ↔ n ∈ candidates (.sel (.seq H x) (.seq H y) p) P := by
  simp only [candidates]
  by_cases hP : P.isEmpty
  · rw [if_pos hP, if_pos hP]
    simp only [List.mem_filter]
    rw [mem_offers_assoc H x y p n]
  · rw [if_neg hP, if_neg hP]
    simp only [List.mem_filter]
    rw [mem_offers_assoc H x y p n]

/-- The self-negotiation candidate lists of the two associated stack shapes
have the same members. -/
theorem mem_candidates_solo_assoc (H x y : Stack) (p : Pref) (n : Nonce) :
    n ∈ candidates (.seq H (.sel x y p)) (offers (.seq H (.sel x y p)))
      ↔ n ∈ candidates (.sel (.seq H x) (.seq H y) p)
          (offers (.sel (.seq H x) (.seq H y) p)) := by
  simp only [candidates]
  rw [if_neg (by simp [offers_isEmpty_false]), if_neg (by simp [offers_isEmpty_false])]
  simp only [List.mem_filter]
  rw [mem_offers_assoc H x y p n,
    any_congr_mem (fun q => stack_pair_valid n q) (mem_offers_assoc H x y p)]

/-- Two monomorphizer runs agree when their candidates have the same members,
their keys and apply-success agree on the first stack's offers, and the pick
key determines the candidate. -/
theorem monomorphize_eq_of (A B : Stack) (P1 P2 : List Nonce)
    (hcand : ∀ n, n ∈ candidates A P1 ↔ n ∈ candidates B P2)
    (hkey : ∀ n ∈ offers A, pickKey A n = pickKey B n)
    (happ : ∀ n ∈ offers A, (applyStack A n).isOk = (applyStack B n).isOk)
    (hinj : ∀ m1 ∈ offers A, ∀ m2 ∈ offers A, pickKey A m1 = pickKey A m2 → m1 = m2) :
    monomorphize A P1 = monomorphize B P2 := by
  have hcb := chooseBest_congr (pickKey A) (pickKey B) (candidates A P1) (candidates B P2)
    hcand (fun n hn => hkey n (candidates_sub hn))
    (fun m1 h1 m2 h2 => hinj m1 (candidates_sub h1) m2 (candidates_sub h2))
  simp only [monomorphize, ← hcb]
  cases hm : chooseBest (pickKey A) (candidates A P1) with
  | none => rfl
  | some m =>
    have hmem := (chooseBest_spec _ _ _ hm).1
    simp only [happ m (candidates_sub hmem)]

/-- Claim C9: monomorphization is associative over stack shape.  For any head
`H`, branches `x` and `y`, and peer offers `P`, monomorphizing
`Sequence(H, Select(x, y))` and `Select(Sequence(H, x), Sequence(H, y))`
produce equal results, and self-monomorphization (`solo_monomorphize`, peer
offers equal to the stack's own offers) agrees on the two forms, under the
nonce-identity invariant that a concrete stack is determined by its
capability-to-implementation guid mapping. -/
theorem C9_monomorphize_associative (H x y : Stack) (p : Pref) (P : List Nonce)
    (hinj : ∀ m1 ∈ offers (.seq H (.sel x y p)), ∀ m2 ∈ offers (.seq H (.sel x y p)),
        keyPairs m1 = keyPairs m2 → m1 = m2) :
    monomorphize (.seq H (.sel x y p)) P = monomorphize (.sel (.seq H x) (.seq H y) p) P
    ∧ solo_monomorphize (.seq H (.sel x y p))
        = solo_monomorphize (.sel (.seq H x) (.seq H y) p) := by
  have hkey : ∀ n ∈ offers (.seq H (.sel x y p)),
      pickKey (.seq H (.sel x y p)) n = pickKey (.sel (.seq H x) (.seq H y) p) n :=
    fun n hn => pickKey_assoc H x y p n (offers_seq_head_sub H _ n hn)
  have happ : ∀ n ∈ offers (.seq H (.sel x y p)),
      (applyStack (.seq H (.sel x y p)) n).isOk
        = (applyStack (.sel (.seq H x) (.seq H y) p) n).isOk :=
    fun n hn => applyStack_assoc_isOk H x y p n (offers_seq_head_sub H _ n hn)
  have hinj' : ∀ m1 ∈ offers (.seq H (.sel x y p)), ∀ m2 ∈ offers (.seq H (.sel x y p)),
      pickKey (.seq H (.sel x y p)) m1 = pickKey (.seq H (.sel x y p)) m2 → m1 = m2 :=
    fun m1 h1 m2 h2 hk => hinj m1 h1 m2 h2 (congrArg PickKey.r4 hk)
  exact ⟨monomorphize_eq_of _ _ P P (mem_candidates_assoc H x y p P) hkey happ hinj',
    monomorphize_eq_of _ _ _ _ (mem_candidates_solo_assoc H x y p) hkey happ hinj'⟩

/-- Witness for C9: the two shapes of the `solo_monomorphize_associative`
test, `Select(Sequence(A, B), Sequence(A, C))` and
`Sequence(A, Select(B, C))`, self-monomorphize successfully to the same
nonce. -/
theorem C9_monomorphize_associative_witness :
    solo_monomorphize (.seq leafA (.sel leafB leafC .left))
        = solo_monomorphize (.sel (.seq leafA leafB) (.seq leafA leafC) .left)
    ∧ solo_monomorphize (.seq leafA (.sel leafB leafC .left)) = .ok [(1, oA), (2, oB)] := by
  refine ⟨(C9_monomorphize_associative leafA leafB leafC .left [] ?_).2, by decide⟩
  decide

end Tbm
